import Mathlib

/-!
Verification of the hashcards deck-parsing core (src/parser.rs, src/types/card.rs).

Strings are modelled at the byte level (`Bytes := List Nat`, each entry < 256 in
practice), matching the Rust code, whose cloze spans and hash streams are byte
offsets and byte streams.  ASCII test inputs are written with `asciiBytes`.

The cryptographic digest (blake3, in src/types/card_hash.rs, which is not part
of the sources under verification) is modelled as an injective function of its
input byte stream, as the claims direct; concretely `CardContent.hash` returns
the byte stream itself that the Rust code feeds to the hasher.
-/

namespace Hashcards

/-- Byte strings: the model of Rust `String` / `&str` / `&[u8]` values. -/
abbrev Bytes := List Nat

/-- Bytes of an ASCII string literal (every character below 128).  Used only to
write concrete test inputs; `Char.toNat` agrees with UTF-8 on ASCII. -/
def asciiBytes (s : String) : Bytes := s.data.map Char.toNat

/-- `usize::to_le_bytes` on a 64-bit platform: the eight little-endian bytes
of `n % 2^64`. -/
def le8 (n : Nat) : Bytes :=
  [n % 256, n / 256 % 256, n / 256 ^ 2 % 256, n / 256 ^ 3 % 256,
   n / 256 ^ 4 % 256, n / 256 ^ 5 % 256, n / 256 ^ 6 % 256, n / 256 ^ 7 % 256]

/-- The card content variants (src/types/card.rs, enum CardContent).
The Rust field `end` is a Lean keyword and is rendered `endPos`. -/
inductive CardContent where
  | Basic (question : Bytes) (answer : Bytes)
  | Cloze (text : Bytes) (start : Nat) (endPos : Nat)
deriving DecidableEq

/-- The content hash of a card (src/types/card.rs, CardContent::hash).
The Rust code feeds the hasher `b"Basic"` then the question bytes then the
answer bytes, or `b"Cloze"` then the text bytes then `start.to_le_bytes()`
then `end.to_le_bytes()`; with the digest modelled as injective, the hash is
that byte stream.  `[66,97,115,105,99]` is `b"Basic"`, `[67,108,111,122,101]`
is `b"Cloze"`. -/
def CardContent.hash : CardContent → Bytes
  | .Basic question answer => [66, 97, 115, 105, 99] ++ question ++ answer
  | .Cloze text start endPos => [67, 108, 111, 122, 101] ++ text ++ le8 start ++ le8 endPos

/-! ## Byte-string helpers -/

/-- ASCII whitespace bytes recognized by Rust `str::trim` (the model is
restricted to ASCII whitespace; the non-ASCII Unicode whitespace code points
also trimmed by Rust do not occur in any input considered here). -/
def isWsByte (b : Nat) : Bool :=
  b == 9 || b == 10 || b == 11 || b == 12 || b == 13 || b == 32

/-- Rust `str::trim` on byte strings. -/
def trimBytes (s : Bytes) : Bytes :=
  ((s.dropWhile isWsByte).reverse.dropWhile isWsByte).reverse

/-- `startsWith p s` holds when `p` is a prefix of `s` (Rust `str::starts_with`). -/
def startsWith : Bytes → Bytes → Bool
  | [], _ => true
  | _ :: _, [] => false
  | p :: ps, b :: bs => p == b && startsWith ps bs

/-- Split at every newline byte; `n` newlines give `n+1` pieces. -/
def splitNL : Bytes → List Bytes
  | [] => [[]]
  | 10 :: t => [] :: splitNL t
  | b :: t =>
    match splitNL t with
    | [] => [[b]]
    | l :: ls => (b :: l) :: ls

/-- Drop one carriage return at the end of a line (for `\r\n` endings). -/
def stripCR (l : Bytes) : Bytes :=
  if l.getLast? = some 13 then l.dropLast else l

/-- Rust `str::lines`: split at `\n` or `\r\n`; the final line ending is
optional and produces no extra empty line. -/
def rustLines (s : Bytes) : List Bytes :=
  match s with
  | [] => []
  | _ =>
    let ps := splitNL s
    let init := (ps.dropLast).map stripCR
    match ps.getLast? with
    | some [] => init
    | some l => init ++ [l]
    | none => init

/-! ## Card model (src/types/card.rs) -/

/-- CardContent::new_basic: both fields are trimmed. -/
def CardContent.new_basic (question answer : Bytes) : CardContent :=
  .Basic (trimBytes question) (trimBytes answer)

/-- CardContent::new_cloze. -/
def CardContent.new_cloze (text : Bytes) (start endPos : Nat) : CardContent :=
  .Cloze text start endPos

/-- A parsed card (src/types/card.rs, struct Card).  Deck names and file paths
are byte strings like everything else. -/
structure Card where
  deck_name : Bytes
  file_path : Bytes
  range : Nat × Nat
  content : CardContent
  hash : Bytes
deriving DecidableEq

/-- Card::new caches the content hash at construction. -/
def Card.new (deck_name file_path : Bytes) (range : Nat × Nat) (content : CardContent) : Card :=
  ⟨deck_name, file_path, range, content, content.hash⟩

/-! ## Parser data types (src/parser.rs) -/

structure ParserError where
  message : String
  file_path : Bytes
  line_num : Nat
deriving DecidableEq

/-- The Display impl renders "{message} Location: {file_path}:{line_num + 1}";
modelled as the triple of rendered components, with the 1-indexed line. -/
def ParserError.display (e : ParserError) : String × Bytes × Nat :=
  (e.message, e.file_path, e.line_num + 1)

inductive State where
  | Initial
  | ReadingQuestion (question : Bytes) (start_line : Nat)
  | ReadingAnswer (question : Bytes) (answer : Bytes) (start_line : Nat)
  | ReadingCloze (text : Bytes) (start_line : Nat)
deriving DecidableEq

inductive Line where
  | StartQuestion (text : Bytes)
  | StartAnswer (text : Bytes)
  | StartCloze (text : Bytes)
  | Separator
  | Text (text : Bytes)
deriving DecidableEq

def is_question (line : Bytes) : Bool := startsWith [81, 58] line

def is_answer (line : Bytes) : Bool := startsWith [65, 58] line

def is_cloze (line : Bytes) : Bool := startsWith [67, 58] line

def is_separator (line : Bytes) : Bool := trimBytes line == [45, 45, 45]

/-- `trim` in src/parser.rs: drop the two-byte tag, then trim. -/
def trim (line : Bytes) : Bytes := trimBytes (line.drop 2)

def Line.read (line : Bytes) : Line :=
  if is_question line then .StartQuestion (trim line)
  else if is_answer line then .StartAnswer (trim line)
  else if is_cloze line then .StartCloze (trim line)
  else if is_separator line then .Separator
  else .Text line

structure Parser where
  deck_name : Bytes
  file_path : Bytes

/-! ## The cloze tokenizer (src/parser.rs, parse_cloze_cards inner parsers)

These model the nom 8 combinators used by the source.  Every parser takes the
input byte string and on success returns the remaining input (a suffix); the
matched slice is recovered from the lengths. -/

/-- nom `tag t`. -/
def tag (t : Bytes) (s : Bytes) : Option Bytes :=
  if startsWith t s then some (s.drop t.length) else none

/-- nom `line_ending`: `\n` or `\r\n`. -/
def line_ending : Bytes → Option Bytes
  | 10 :: r => some r
  | 13 :: 10 :: r => some r
  | _ => none

/-- nom `escaped(is_not(ds), backslash, escapable)` as used in the source, with
`ds` a set of ASCII bytes not containing the backslash.  Because `is_not ds`
accepts the control character backslash, the escape branch of the combinator is
unreachable: `escaped` only takes that branch when the normal parser fails at
the cursor, which happens exactly at a byte of `ds`, never at a backslash.
The combinator therefore reduces to: succeed on empty input with an empty
match; fail if the first byte is in `ds`; otherwise consume the maximal run
of bytes outside `ds`. -/
def escRun (ds : Bytes) (s : Bytes) : Option Bytes :=
  match s with
  | [] => some []
  | b :: _ => if b ∈ ds then none else some (s.dropWhile (fun c => decide (c ∉ ds)))

/-- `plain`: escaped(is_not("$`|"), backslash, alt((tag("$$"), tag("$"), tag("`"),
tag("||")))).  `$` = 36, `` ` `` = 96, `|` = 124. -/
def plain (s : Bytes) : Option Bytes := escRun [36, 96, 124] s

/-- `inline_latex`: recognize((tag("$"), escaped(is_not("$"), backslash, tag("$")), tag("$"))). -/
def inline_latex (s : Bytes) : Option Bytes := do
  let r1 ← tag [36] s
  let r2 ← escRun [36] r1
  tag [36] r2

/-- `block_latex`: recognize((tag("$$"), escaped(is_not("$"), backslash, tag("$$")), tag("$$"))). -/
def block_latex (s : Bytes) : Option Bytes := do
  let r1 ← tag [36, 36] s
  let r2 ← escRun [36] r1
  tag [36, 36] r2

/-- `inline_code`: recognize((tag("`"), many0(none_of("`\n\r")), tag("`"))). -/
def inline_code (s : Bytes) : Option Bytes := do
  let r1 ← tag [96] s
  let r2 := r1.dropWhile (fun c => !(c == 96 || c == 10 || c == 13))
  tag [96] r2

/-- nom `many_till(anychar, (line_ending, tag fence))`: consume bytes up to
and including the first occurrence of a line ending followed by the fence.
`anychar` consumes one character; one byte at a time is equivalent here
because the terminator starts with an ASCII byte, which in valid UTF-8 occurs
only on character boundaries. -/
def many_till_end (fence : Bytes) : Bytes → Option Bytes
  | [] => none
  | s@(_ :: t) =>
    match (do let r1 ← line_ending s; tag fence r1) with
    | some r => some r
    | none => many_till_end fence t

/-- `block_code`: probes the opening backtick run with take_while1, then
requires tag(fence), line_ending, recognize(many_till(anychar, (line_ending,
tag(fence)))), then (line_ending, tag(fence)) AGAIN, then opt(line_ending).
Note that many_till already consumes one closing line_ending+fence, so the
combinator as written demands the closing sequence twice. -/
def block_code (s : Bytes) : Option Bytes :=
  let fence := s.takeWhile (fun c => c == 96)
  if fence.isEmpty then none
  else do
    let r1 ← tag fence s
    let r2 ← line_ending r1
    let r3 ← many_till_end fence r2
    let r4 ← line_ending r3
    let r5 ← tag fence r4
    some ((line_ending r5).getD r5)

/-- The non-cloze alternation alt((block_code, block_latex, inline_latex,
inline_code, plain)), shared by the inner many0 of `cloze` and by `next_token`. -/
def alt_non_cloze (s : Bytes) : Option Bytes :=
  match block_code s with
  | some r => some r
  | none =>
    match block_latex s with
    | some r => some r
    | none =>
      match inline_latex s with
      | some r => some r
      | none =>
        match inline_code s with
        | some r => some r
        | none => plain s

/-- nom `many0(alt_non_cloze)`, fuelled.  The many0 of nom stops with success when
the inner parser fails, and aborts with an error when an iteration succeeds
without consuming input (infinite-loop protection) — here that happens exactly
when the input is exhausted mid-loop, since `plain` matches the empty string.
Each successful iteration consumes at least one byte, so fuel `s.length + 1`
is never exhausted. -/
def many0_go (fuel : Nat) (s : Bytes) : Option Bytes :=
  match fuel with
  | 0 => none
  | fuel + 1 =>
    match alt_non_cloze s with
    | none => some s
    | some s1 => if s1.length == s.length then none else many0_go fuel s1

def many0_non_cloze (s : Bytes) : Option Bytes := many0_go (s.length + 1) s

/-- `cloze`: delimited(tag("||"), recognize(many0(alt(...))), tag("||")).
Returns the captured inner slice (the delimiters are dropped) and the rest. -/
def cloze (s : Bytes) : Option (Bytes × Bytes) := do
  let r1 ← tag [124, 124] s
  let r2 ← many0_non_cloze r1
  let captured := r1.take (r1.length - r2.length)
  let r3 ← tag [124, 124] r2
  some (captured, r3)

/-- `next_token`: alt((map(cloze, |s| (s, true)), map(alt((block_code,
block_latex, inline_latex, inline_code, plain)), |s| (s, false)))). -/
def next_token (s : Bytes) : Option ((Bytes × Bool) × Bytes) :=
  match cloze s with
  | some (captured, rem) => some ((captured, true), rem)
  | none =>
    match alt_non_cloze s with
    | some rem => some ((s.take (s.length - rem.length), false), rem)
    | none => none

/-- The scanning loop of parse_cloze_cards, fuelled by the cursor length:
while the cursor is nonempty, Ok(next_token) pushes the token and advances to
the remainder, Err skips exactly one byte.  Every successful token consumes at
least one byte (proved below), so fuel `s.length` is never exhausted. -/
def scan_go (fuel : Nat) (s : Bytes) : List (Bytes × Bool) :=
  match fuel with
  | 0 => []
  | fuel + 1 =>
    match s with
    | [] => []
    | _ :: t =>
      match next_token s with
      | some (tok, rem) => tok :: scan_go fuel rem
      | none => scan_go fuel t

def scan_tokens (s : Bytes) : List (Bytes × Bool) := scan_go s.length s

/-! ## parse_cloze_cards, parse_line, finalize, parse (src/parser.rs) -/

def zero_deletion_msg : String := "Cloze card must contain at least one cloze deletion."

/-- 2^64, the modulus of `usize` arithmetic on the 64-bit target. -/
def USIZE : Nat := 2 ^ 64

/-- `clean_start + orig_slice.len() - 1` in release-mode `usize` arithmetic:
subtraction wraps modulo 2^64 (a debug build would panic on the underflow at
`clean_start + len = 0`). -/
def usizeDecOne (n : Nat) : Nat := (n + (USIZE - 1)) % USIZE

def Parser.parse_cloze_cards (p : Parser) (text : Bytes) (start_line end_line : Nat) :
    Except ParserError (List Card) :=
  let tokens := scan_tokens (trimBytes text)
  let acc := tokens.enum.foldl
    (fun (acc : Bytes × List (Nat × Nat)) (it : Nat × (Bytes × Bool)) =>
      (acc.1 ++ it.2.1, if it.2.2 then acc.2 ++ [(acc.1.length, it.1)] else acc.2))
    ([], [])
  let clean := acc.1
  let cloze_starts := acc.2
  let cards := cloze_starts.map (fun cs =>
    let orig_slice := (tokens.getD cs.2 ([], false)).1
    let clean_end := usizeDecOne (cs.1 + orig_slice.length)
    Card.new p.deck_name p.file_path (start_line, end_line)
      (CardContent.new_cloze clean cs.1 clean_end))
  if cards.isEmpty then
    .error ⟨zero_deletion_msg, p.file_path, start_line⟩
  else
    .ok cards

def Parser.parse_line (p : Parser) (state : State) (line : Line) (line_num : Nat) :
    Except ParserError (List Card × State) :=
  match state with
  | .Initial =>
    match line with
    | .StartQuestion text => .ok ([], .ReadingQuestion text line_num)
    | .StartAnswer _ =>
      .error ⟨"Found answer tag without a question.", p.file_path, line_num⟩
    | .StartCloze text => .ok ([], .ReadingCloze text line_num)
    | .Separator => .ok ([], .Initial)
    | .Text _ => .ok ([], .Initial)
  | .ReadingQuestion question start_line =>
    match line with
    | .StartQuestion _ =>
      .error ⟨"New question without answer.", p.file_path, line_num⟩
    | .StartAnswer text => .ok ([], .ReadingAnswer question text start_line)
    | .StartCloze _ =>
      .error ⟨"Found cloze tag while reading a question.", p.file_path, line_num⟩
    | .Separator =>
      .error ⟨"Found flashcard separator while reading a question.", p.file_path, line_num⟩
    | .Text text => .ok ([], .ReadingQuestion (question ++ [10] ++ text) start_line)
  | .ReadingAnswer question answer start_line =>
    match line with
    | .StartQuestion text =>
      .ok ([Card.new p.deck_name p.file_path (start_line, line_num)
              (CardContent.new_basic question answer)],
          .ReadingQuestion text line_num)
    | .StartAnswer _ =>
      .error ⟨"Found answer tag while reading an answer.", p.file_path, line_num⟩
    | .StartCloze text =>
      .ok ([Card.new p.deck_name p.file_path (start_line, line_num)
              (CardContent.new_basic question answer)],
          .ReadingCloze text line_num)
    | .Separator =>
      .ok ([Card.new p.deck_name p.file_path (start_line, line_num)
              (CardContent.new_basic question answer)],
          .Initial)
    | .Text text => .ok ([], .ReadingAnswer question (answer ++ [10] ++ text) start_line)
  | .ReadingCloze text start_line =>
    match line with
    | .StartQuestion ntext => do
      let cs ← p.parse_cloze_cards text start_line line_num
      .ok (cs, .ReadingQuestion ntext line_num)
    | .StartAnswer _ =>
      .error ⟨"Found answer tag while reading a cloze card.", p.file_path, line_num⟩
    | .StartCloze ntext => do
      let cs ← p.parse_cloze_cards text start_line line_num
      .ok (cs, .ReadingCloze ntext line_num)
    | .Separator => do
      let cs ← p.parse_cloze_cards text start_line line_num
      .ok (cs, .Initial)
    | .Text ntext => .ok ([], .ReadingCloze (text ++ [10] ++ ntext) start_line)

def Parser.finalize (p : Parser) (state : State) (last_line : Nat) :
    Except ParserError (List Card) :=
  match state with
  | .Initial => .ok []
  | .ReadingQuestion _ _ =>
    .error ⟨"File ended while reading a question without answer.", p.file_path, last_line⟩
  | .ReadingAnswer question answer start_line =>
    .ok [Card.new p.deck_name p.file_path (start_line, last_line)
           (CardContent.new_basic question answer)]
  | .ReadingCloze text start_line => p.parse_cloze_cards text start_line last_line

/-- The dedup loop at the end of Parser::parse: walk the emitted cards in
order, keep a set of seen hashes, retain only the first occurrence per hash. -/
def dedup_first (cards : List Card) : List Card :=
  (cards.foldl
    (fun (acc : List Card × List Bytes) c =>
      if c.hash ∈ acc.2 then acc else (acc.1 ++ [c], c.hash :: acc.2))
    ([], [])).1

/-- The line loop of Parser::parse: feed each line, with its index, to
parse_line, accumulating the emitted cards in order and threading the state;
the first error aborts. -/
def Parser.run_lines (p : Parser) (state : State) (i : Nat) :
    List Bytes → Except ParserError (List Card × State)
  | [] => .ok ([], state)
  | l :: ls => do
    let r ← p.parse_line state (Line.read l) i
    let rest ← p.run_lines r.2 (i + 1) ls
    .ok (r.1 ++ rest.1, rest.2)

/-- Parser::parse before its dedup pass: classify each line, run the state
machine, then finalize.  (The source inlines this and the dedup loop in one
function; it is split here so the pre-dedup emission sequence is nameable.) -/
def Parser.parseRaw (p : Parser) (text : Bytes) : Except ParserError (List Card) := do
  let lines := rustLines text
  let last_line := if lines.isEmpty then 0 else lines.length - 1
  let res ← p.run_lines State.Initial 0 lines
  let fin ← p.finalize res.2 last_line
  pure (res.1 ++ fin)

/-- Parser::parse. -/
def Parser.parse (p : Parser) (text : Bytes) : Except ParserError (List Card) := do
  pure (dedup_first (← p.parseRaw text))

/-! ## Frontmatter extraction and the deck loader (src/parser.rs) -/

structure DeckMetadata where
  name : Option Bytes
deriving DecidableEq

inductive DeckError where
  | report (msg : String)
  | parser (e : ParserError)
deriving DecidableEq

/-- Modelled from the spec: the TOML value parser (the external `toml` crate;
not part of the sources under verification) applied to the frontmatter body,
"recognizing one optional key, `name: string`; any other keys are ignored".
A line of the form `name = "<value>"`, with optional surrounding whitespace,
yields the value; other lines are ignored; TOML syntax errors are not
modelled (they would only make more inputs fail, and no claim depends on
them).  String escape sequences inside the quoted value are not modelled. -/
def toml_name_line (l : Bytes) : Option Bytes :=
  let t := trimBytes l
  if startsWith [110, 97, 109, 101] t then
    let r := trimBytes (t.drop 4)
    if startsWith [61] r then
      let v := trimBytes (r.drop 1)
      if 2 ≤ v.length && startsWith [34] v && v.getLast? == some 34 then
        some ((v.drop 1).dropLast)
      else none
    else none
  else none

def toml_name (ls : List Bytes) : Option Bytes := ls.findSome? toml_name_line

/-- Helper for extract_frontmatter: split the lines after the opening `---`
into the frontmatter body and the 0-indexed line number of the closing `---`
(the counter starts at 1, the index of the first line after the opening). -/
def fm_split : List Bytes → Nat → Option (List Bytes × Nat)
  | [], _ => none
  | l :: ls, idx =>
    if trimBytes l == [45, 45, 45] then some ([], idx)
    else
      match fm_split ls (idx + 1) with
      | none => none
      | some r => some (l :: r.1, r.2)

/-- The byte-offset scan at the end of extract_frontmatter: the remaining text
after the `n`-th newline byte (`\n` is ASCII, so counting newline bytes agrees
with the char_indices scan of the source). -/
def after_newlines : Nat → Bytes → Option Bytes
  | _, [] => none
  | n, b :: t =>
    if b == 10 then
      if n == 1 then some t else after_newlines (n - 1) t
    else after_newlines n t

/-- extract_frontmatter.  The unterminated-frontmatter error message is
paraphrased (the exact text matters to no claim). -/
def extract_frontmatter (text : Bytes) : Except DeckError (DeckMetadata × Bytes) :=
  match rustLines text with
  | [] => .ok (⟨none⟩, text)
  | first :: rest =>
    if trimBytes first == [45, 45, 45] then
      match fm_split rest 1 with
      | none => .error (.report "Frontmatter opening delimiter found but no closing delimiter")
      | some r => .ok (⟨toml_name r.1⟩, (after_newlines (r.2 + 1) text).getD [])
    else .ok (⟨none⟩, text)

/-- Rust `Path::file_name` followed by extension splitting: the final path
component (after the last `/`). -/
def file_name (p : Bytes) : Bytes := (p.reverse.takeWhile (fun b => !(b == 47))).reverse

/-- Rust `Path::file_stem`: the final component minus the part after its last
dot; a name whose only dot is leading keeps the whole name. -/
def file_stem (p : Bytes) : Option Bytes :=
  let n := file_name p
  if n.isEmpty then none
  else
    let pre := n.reverse.dropWhile (fun b => !(b == 46))
    if pre.isEmpty then some n
    else if (pre.drop 1).isEmpty then some n
    else some ((pre.drop 1).reverse)

/-- Rust `Path::extension`: the part of the final component after its last dot;
none when there is no dot or the only dot is leading. -/
def extension (p : Bytes) : Option Bytes :=
  let n := file_name p
  let extRev := n.reverse.takeWhile (fun b => !(b == 46))
  if extRev.length == n.length then none
  else if extRev.length + 1 == n.length then none
  else some extRev.reverse

/-- Lexicographic comparison of hash byte strings, the order of the derived
`Ord` on the fixed-width hash array ("ascending, by raw hash bytes"). -/
def bytesLe : Bytes → Bytes → Bool
  | [], _ => true
  | _ :: _, [] => false
  | a :: as, b :: bs => if a < b then true else if b < a then false else bytesLe as bs

/-- The comparison `sort_by_key(|c| c.hash())` sorts by. -/
def hashLe (a b : Card) : Prop := bytesLe a.hash b.hash = true

instance : DecidableRel hashLe := fun a b => by unfold hashLe; infer_instance

/-- `Vec::dedup_by_key(|c| c.hash())`: remove consecutive cards with equal
hashes, keeping the first of each run.  (`dedup_go a t` processes `t` with `a`
the last retained card.) -/
def dedup_go (a : Card) : List Card → List Card
  | [] => []
  | b :: t => if a.hash == b.hash then dedup_go a t else b :: dedup_go b t

def dedup_consecutive : List Card → List Card
  | [] => []
  | a :: t => a :: dedup_go a t

/-- parse_deck, with the recursive directory walk modelled as the list of
(path, file text) pairs it visits, in walk order; every entry is a file.
Rust `slice::sort_by_key` is a stable sort; it is modelled by insertion sort,
which is also stable, and two stable sorts by the same key agree on every
input. -/
def load_file (f : Bytes × Bytes) : Except DeckError (List Card) :=
  if extension f.1 == some [109, 100] then do
    let r ← extract_frontmatter f.2
    let deck_name := r.1.name.getD ((file_stem f.1).getD (asciiBytes "None"))
    Except.mapError DeckError.parser ((Parser.mk deck_name f.1).parse r.2)
  else .ok []

def load_files : List (Bytes × Bytes) → Except DeckError (List Card)
  | [] => .ok []
  | f :: fs => do
    let cs ← load_file f
    let rest ← load_files fs
    .ok (cs ++ rest)

def parse_deck (files : List (Bytes × Bytes)) : Except DeckError (List Card) := do
  let all_cards ← load_files files
  pure (dedup_consecutive (List.insertionSort hashLe all_cards))

/-! ## Spec-side definitions and instrumentation

Definitions below are not transcriptions of the source: they state, in the
vocabulary of the spec, the properties the theorems compare the source
against (the transition table, the dedup criteria, the effective deck name),
plus the instrumented scanner and UTF-8 validity used by C9 and C10. -/

/-- The spec-side identity criterion that the amended C1 states: Basic
contents are identified exactly up to the concatenation question ++ answer
(the field boundary is not part of the hashed stream); Cloze contents exactly
up to all three fields; contents of different variants are never identified. -/
def content_key_eq : CardContent → CardContent → Prop
  | .Basic q1 a1, .Basic q2 a2 => q1 ++ a1 = q2 ++ a2
  | .Cloze t1 s1 e1, .Cloze t2 s2 e2 => t1 = t2 ∧ s1 = s2 ∧ e1 = e2
  | _, _ => False

/-- Cloze offsets are usize values. -/
def usize_ok : CardContent → Prop
  | .Basic _ _ => True
  | .Cloze _ s e => s < 2 ^ 64 ∧ e < 2 ^ 64

/-- A parser context for concrete inputs. -/
def sample_ctx : Parser := ⟨asciiBytes "deck", asciiBytes "deck.md"⟩

/-- The §4.3 transition table, transcribed row by row from the spec: for each
state and classified-line kind, the successor state, the emitted cards with
their ranges (a Basic card on leaving ReadingAnswer, the cards of the tokenizer on
leaving ReadingCloze), or the quoted error at the current line. -/
def spec_transition (p : Parser) : State → Line → Nat → Except ParserError (List Card × State)
  | .Initial, .StartQuestion q, n => .ok ([], .ReadingQuestion q n)
  | .Initial, .StartAnswer _, n =>
    .error ⟨"Found answer tag without a question.", p.file_path, n⟩
  | .Initial, .StartCloze t, n => .ok ([], .ReadingCloze t n)
  | .Initial, .Separator, _ => .ok ([], .Initial)
  | .Initial, .Text _, _ => .ok ([], .Initial)
  | .ReadingQuestion _ _, .StartQuestion _, n =>
    .error ⟨"New question without answer.", p.file_path, n⟩
  | .ReadingQuestion q s, .StartAnswer a, _ => .ok ([], .ReadingAnswer q a s)
  | .ReadingQuestion _ _, .StartCloze _, n =>
    .error ⟨"Found cloze tag while reading a question.", p.file_path, n⟩
  | .ReadingQuestion _ _, .Separator, n =>
    .error ⟨"Found flashcard separator while reading a question.", p.file_path, n⟩
  | .ReadingQuestion q s, .Text t, _ => .ok ([], .ReadingQuestion (q ++ [10] ++ t) s)
  | .ReadingAnswer q a s, .StartQuestion q2, n =>
    .ok ([Card.new p.deck_name p.file_path (s, n) (.new_basic q a)], .ReadingQuestion q2 n)
  | .ReadingAnswer _ _ _, .StartAnswer _, n =>
    .error ⟨"Found answer tag while reading an answer.", p.file_path, n⟩
  | .ReadingAnswer q a s, .StartCloze t2, n =>
    .ok ([Card.new p.deck_name p.file_path (s, n) (.new_basic q a)], .ReadingCloze t2 n)
  | .ReadingAnswer q a s, .Separator, n =>
    .ok ([Card.new p.deck_name p.file_path (s, n) (.new_basic q a)], .Initial)
  | .ReadingAnswer q a s, .Text t, _ => .ok ([], .ReadingAnswer q (a ++ [10] ++ t) s)
  | .ReadingCloze t s, .StartQuestion q2, n =>
    (p.parse_cloze_cards t s n).map (fun cs => (cs, .ReadingQuestion q2 n))
  | .ReadingCloze _ _, .StartAnswer _, n =>
    .error ⟨"Found answer tag while reading a cloze card.", p.file_path, n⟩
  | .ReadingCloze t s, .StartCloze t2, n =>
    (p.parse_cloze_cards t s n).map (fun cs => (cs, .ReadingCloze t2 n))
  | .ReadingCloze t s, .Separator, n =>
    (p.parse_cloze_cards t s n).map (fun cs => (cs, .Initial))
  | .ReadingCloze t s, .Text t2, _ => .ok ([], .ReadingCloze (t ++ [10] ++ t2) s)

/-- The §4.3 end-of-file finalization rules, transcribed from the spec. -/
def spec_finalize (p : Parser) : State → Nat → Except ParserError (List Card)
  | .Initial, _ => .ok []
  | .ReadingQuestion _ _, n =>
    .error ⟨"File ended while reading a question without answer.", p.file_path, n⟩
  | .ReadingAnswer q a s, n =>
    .ok [Card.new p.deck_name p.file_path (s, n) (.new_basic q a)]
  | .ReadingCloze t s, n => p.parse_cloze_cards t s n

/-- The dedup loop with an explicit seen-set accumulator (the loop body of
the source, recursion instead of fold). -/
def keep_new (seen : List Bytes) : List Card → List Card
  | [] => []
  | c :: t => if c.hash ∈ seen then keep_new seen t else c :: keep_new (c.hash :: seen) t

/-- Spec-side formulation of the §4.3 dedup: keep each emitted card exactly
when no earlier emitted card has the same hash (drop the later duplicates of
the head, recursively). -/
def spec_first_occurrence : List Card → List Card
  | [] => []
  | c :: t => c :: spec_first_occurrence (t.filter (fun d => !(d.hash == c.hash)))
termination_by l => l.length
decreasing_by
  exact Nat.lt_succ_of_le (t.length_filter_le _)

/-- The effective deck name the amended C6 states: the frontmatter name
whenever the key is present (even when its value is the empty string);
otherwise the base name of the file without extension; otherwise the fallback
literal "None".  `none` when frontmatter extraction fails. -/
def effective_deck_name (path text : Bytes) : Option Bytes :=
  match extract_frontmatter text with
  | .error _ => none
  | .ok r => some (r.1.name.getD ((file_stem path).getD (asciiBytes "None")))

/-- Continuation bytes of UTF-8. -/
def isCont (b : Nat) : Bool := 128 ≤ b && b ≤ 191

/-- UTF-8 well-formedness of a byte string, by leading-byte class: ASCII
(one byte), two-byte leads C2..DF, three-byte leads E0..EF, four-byte leads
F0..F4, each followed by the right number of continuation bytes.  (The
fine-grained exclusions of overlong encodings and surrogates are omitted;
the claims use only the ASCII case, which is exact.)  The fuel argument is
the byte count, spent one byte per step, so it never runs out. -/
def utf8ValidGo : Nat → Bytes → Bool
  | _, [] => true
  | 0, _ :: _ => false
  | fuel + 1, b :: t =>
    if b ≤ 127 then utf8ValidGo fuel t
    else if 194 ≤ b ∧ b ≤ 223 then
      match t with
      | c1 :: t1 => isCont c1 && utf8ValidGo fuel t1
      | [] => false
    else if 224 ≤ b ∧ b ≤ 239 then
      match t with
      | c1 :: c2 :: t2 => isCont c1 && isCont c2 && utf8ValidGo fuel t2
      | _ => false
    else if 240 ≤ b ∧ b ≤ 244 then
      match t with
      | c1 :: c2 :: c3 :: t3 => isCont c1 && isCont c2 && isCont c3 && utf8ValidGo fuel t3
      | _ => false
    else false

def utf8Valid (s : Bytes) : Bool := utf8ValidGo s.length s

/-- An instrumented account of one scanning step: either a matched token
(with its captured slice, its cloze flag, and the full consumed input slice,
delimiters included) or a single skipped byte. -/
inductive Part where
  | tokenPart (slice : Bytes) (isClozeTok : Bool) (consumed : Bytes)
  | skip (b : Nat)
deriving DecidableEq

def Part.consumedBytes : Part → Bytes
  | .tokenPart _ _ c => c
  | .skip b => [b]

def Part.tokenOf : Part → Option (Bytes × Bool)
  | .tokenPart sl ic _ => some (sl, ic)
  | .skip _ => none

/-- The scanning loop instrumented to record the skipped bytes, with the same
fuel and the same steps as scan_go. -/
def scan_parts_go (fuel : Nat) (s : Bytes) : List Part :=
  match fuel with
  | 0 => []
  | fuel + 1 =>
    match s with
    | [] => []
    | b :: t =>
      match next_token s with
      | some (tok, rem) =>
        .tokenPart tok.1 tok.2 (s.take (s.length - rem.length)) :: scan_parts_go fuel rem
      | none => .skip b :: scan_parts_go fuel t

def scan_parts (s : Bytes) : List Part := scan_parts_go s.length s

/-! ## C1: content-hash equality versus structural identity -/

theorem le8_length (n : Nat) : (le8 n).length = 8 := rfl

theorem le8_inj {a b : Nat} (ha : a < 2 ^ 64) (hb : b < 2 ^ 64) (h : le8 a = le8 b) :
    a = b := by
  simp only [le8, List.cons.injEq, and_true] at h
  obtain ⟨e0, e1, e2, e3, e4, e5, e6, e7⟩ := h
  have d0 := Nat.div_add_mod a 256
  have d1 := Nat.div_add_mod (a / 256) 256
  have d2 := Nat.div_add_mod (a / 256 ^ 2) 256
  have d3 := Nat.div_add_mod (a / 256 ^ 3) 256
  have d4 := Nat.div_add_mod (a / 256 ^ 4) 256
  have d5 := Nat.div_add_mod (a / 256 ^ 5) 256
  have d6 := Nat.div_add_mod (a / 256 ^ 6) 256
  have d7 := Nat.div_add_mod (a / 256 ^ 7) 256
  have f0 := Nat.div_add_mod b 256
  have f1 := Nat.div_add_mod (b / 256) 256
  have f2 := Nat.div_add_mod (b / 256 ^ 2) 256
  have f3 := Nat.div_add_mod (b / 256 ^ 3) 256
  have f4 := Nat.div_add_mod (b / 256 ^ 4) 256
  have f5 := Nat.div_add_mod (b / 256 ^ 5) 256
  have f6 := Nat.div_add_mod (b / 256 ^ 6) 256
  have f7 := Nat.div_add_mod (b / 256 ^ 7) 256
  have ga : a / 256 ^ 7 / 256 = 0 := by
    apply Nat.div_eq_of_lt
    · have : a / 256 ^ 7 < 256 := by
        apply Nat.div_lt_of_lt_mul
        calc a < 2 ^ 64 := ha
        _ = 256 ^ 7 * 256 := by norm_num
      exact this
  have gb : b / 256 ^ 7 / 256 = 0 := by
    apply Nat.div_eq_of_lt
    · have : b / 256 ^ 7 < 256 := by
        apply Nat.div_lt_of_lt_mul
        calc b < 2 ^ 64 := hb
        _ = 256 ^ 7 * 256 := by norm_num
      exact this
  have ha2 : a / 256 / 256 = a / 256 ^ 2 := by rw [Nat.div_div_eq_div_mul]; norm_num
  have ha3 : a / 256 ^ 2 / 256 = a / 256 ^ 3 := by rw [Nat.div_div_eq_div_mul]; norm_num
  have ha4 : a / 256 ^ 3 / 256 = a / 256 ^ 4 := by rw [Nat.div_div_eq_div_mul]; norm_num
  have ha5 : a / 256 ^ 4 / 256 = a / 256 ^ 5 := by rw [Nat.div_div_eq_div_mul]; norm_num
  have ha6 : a / 256 ^ 5 / 256 = a / 256 ^ 6 := by rw [Nat.div_div_eq_div_mul]; norm_num
  have ha7 : a / 256 ^ 6 / 256 = a / 256 ^ 7 := by rw [Nat.div_div_eq_div_mul]; norm_num
  have hb2 : b / 256 / 256 = b / 256 ^ 2 := by rw [Nat.div_div_eq_div_mul]; norm_num
  have hb3 : b / 256 ^ 2 / 256 = b / 256 ^ 3 := by rw [Nat.div_div_eq_div_mul]; norm_num
  have hb4 : b / 256 ^ 3 / 256 = b / 256 ^ 4 := by rw [Nat.div_div_eq_div_mul]; norm_num
  have hb5 : b / 256 ^ 4 / 256 = b / 256 ^ 5 := by rw [Nat.div_div_eq_div_mul]; norm_num
  have hb6 : b / 256 ^ 5 / 256 = b / 256 ^ 6 := by rw [Nat.div_div_eq_div_mul]; norm_num
  have hb7 : b / 256 ^ 6 / 256 = b / 256 ^ 7 := by rw [Nat.div_div_eq_div_mul]; norm_num
  omega

/-- C1 (counterexample): hash equality does not coincide with structural
identity.  The byte stream for Basic cards is the tag followed by the bare
concatenation of question and answer, so moving a byte across the
question/answer boundary yields a structurally distinct content with the
identical stream. -/
theorem C1_counterexample :
    (CardContent.Basic (asciiBytes "ab") (asciiBytes "c")).hash =
      (CardContent.Basic (asciiBytes "a") (asciiBytes "bc")).hash ∧
    decide (CardContent.Basic (asciiBytes "ab") (asciiBytes "c") =
      CardContent.Basic (asciiBytes "a") (asciiBytes "bc")) = false := by
  exact ⟨by decide, by decide⟩

/-- C1 (amended): with the digest modelled as injective on its input stream,
hash equality coincides with: equal question ++ answer concatenations for two
Basic contents; equal text, start and end for two Cloze contents (whose
offsets are usize values); and never across variants. -/
theorem C1_hash_eq_iff (c1 c2 : CardContent) (h1 : usize_ok c1) (h2 : usize_ok c2) :
    c1.hash = c2.hash ↔ content_key_eq c1 c2 := by
  cases c1 with
  | Basic q1 a1 =>
    cases c2 with
    | Basic q2 a2 => simp [CardContent.hash, content_key_eq]
    | Cloze t2 s2 e2 => simp [CardContent.hash, content_key_eq]
  | Cloze t1 s1 e1 =>
    cases c2 with
    | Basic q2 a2 => simp [CardContent.hash, content_key_eq]
    | Cloze t2 s2 e2 =>
      obtain ⟨hs1, he1⟩ := h1
      obtain ⟨hs2, he2⟩ := h2
      simp only [CardContent.hash, content_key_eq, List.cons_append, List.nil_append,
        List.cons.injEq, true_and]
      constructor
      · intro h
        rw [List.append_assoc, List.append_assoc] at h
        have hlen : t1.length = t2.length := by
          have := congrArg List.length h
          simp [le8_length] at this
          omega
        obtain ⟨ht, hrest⟩ := List.append_inj h hlen
        obtain ⟨hs, he⟩ := List.append_inj hrest (by simp [le8_length])
        exact ⟨ht, le8_inj hs1 hs2 hs, le8_inj he1 he2 he⟩
      · intro ⟨ht, hs, he⟩
        rw [ht, hs, he]

/-- Witness for C1_hash_eq_iff at a concrete pair of Cloze contents. -/
theorem C1_hash_eq_iff_witness :
    usize_ok (CardContent.Cloze [7] 1 2) ∧
    ((CardContent.Cloze [7] 1 2).hash = (CardContent.Cloze [7] 1 3).hash ↔
      content_key_eq (CardContent.Cloze [7] 1 2) (CardContent.Cloze [7] 1 3)) := by
  refine ⟨by constructor <;> norm_num, ?_⟩
  exact C1_hash_eq_iff (CardContent.Cloze [7] 1 2) (CardContent.Cloze [7] 1 3)
    (by constructor <;> norm_num) (by constructor <;> norm_num)

/-! ## C2, C3, C4: concrete behavior of the tokenizer at the claimed inputs -/

/-- C2: the code evaluated at the failing input "C: ||||".  The empty cloze
deletion parses (tag "||", an empty inner many0, tag "||"), and the span
computation clean_start + captured_length - 1 = 0 + 0 - 1 underflows usize
(wrapping to 2^64 - 1 in a release build; a debug build panics), so the
emitted card violates the claimed invariant start <= end < byte_length(text):
its end is not below the length of its (empty) clean text. -/
theorem C2_empty_deletion_underflow :
    sample_ctx.parse (asciiBytes "C: ||||") =
      .ok [Card.new (asciiBytes "deck") (asciiBytes "deck.md") (0, 0)
             (CardContent.new_cloze [] 0 (2 ^ 64 - 1))] ∧
    decide (2 ^ 64 - 1 < ([] : Bytes).length) = false := by
  exact ⟨rfl, by decide⟩

/-- C3: the code evaluated at the failing input "C: a \|| b ||x||".  The
backslash does not escape the following "||": nom escaped only reaches its
escape branch where the normal parser fails, and is_not("$`|") accepts the
backslash, so the branch is unreachable.  The "||" after the backslash opens
a deletion, and the single emitted card deletes " b " (span (3,5) of clean
text "a \ b x") — not "x" as the claim requires. -/
theorem C3_escape_is_dead :
    sample_ctx.parse (asciiBytes "C: a \\|| b ||x||") =
      .ok [Card.new (asciiBytes "deck") (asciiBytes "deck.md") (0, 0)
             (CardContent.new_cloze (asciiBytes "a \\ b x") 3 5)] ∧
    ((asciiBytes "a \\ b x").drop 3).take 3 = asciiBytes " b " ∧
    decide (((asciiBytes "a \\ b x").drop 3).take 3 = asciiBytes "x") = false := by
  exact ⟨rfl, by decide, by decide⟩

/-- C4: the fenced-code alternative evaluated at fence length N = 1 with
interior "x" (which contains no line equal to the fence).  block_code rejects
the well-formed fence "`\nx\n`" — recognize(many_till(anychar, (line_ending,
tag(fence)))) already consumes the closing line ending and fence, and the
following (line_ending, tag(fence)) then demands them a second time — so the
scanner instead skips both backticks byte by byte and captures only "\nx\n",
not the claimed single verbatim token.  A block whose closing fence line is
duplicated ("`\nx\n`\n`") is what the combinator actually accepts. -/
theorem C4_fence_not_recognized :
    block_code (asciiBytes "`\nx\n`") = none ∧
    scan_tokens (asciiBytes "`\nx\n`") = [(asciiBytes "\nx\n", false)] ∧
    decide ([(asciiBytes "\nx\n", false)] = [(asciiBytes "`\nx\n`", false)]) = false ∧
    block_code (asciiBytes "`\nx\n`\n`") = some [] := by
  exact ⟨rfl, rfl, by decide, rfl⟩

/-! ## C5: the deck state machine against the §4.3 transition table -/

theorem bind_ok_eq_map {α β : Type} (x : Except ParserError α) (f : α → β) :
    (x >>= fun a => Except.ok (f a)) = x.map f := by
  cases x <;> rfl

/-- The only error parse_cloze_cards produces is the zero-deletion error,
located at the start line of the block and carrying the file path of the parser. -/
theorem map_error_inv {α β : Type} {x : Except ParserError α} {f : α → β} {e : ParserError}
    (h : x.map f = .error e) : x = .error e := by
  cases x with
  | error e1 => simpa [Except.map] using h
  | ok a => simp [Except.map] at h

theorem parse_cloze_cards_error_eq (p : Parser) (t : Bytes) (s n : Nat) (e : ParserError)
    (h : p.parse_cloze_cards t s n = .error e) :
    e = ⟨zero_deletion_msg, p.file_path, s⟩ := by
  simp only [Parser.parse_cloze_cards] at h
  split at h
  · injection h with h1
    exact h1.symm
  · exact absurd h (by simp)

/-- C5: the deck state machine conforms to the §4.3 transition table: for
every state, classified line kind and line index, parse_line returns exactly
the successor state, emitted cards and ranges of the table, or its quoted
error; end-of-file finalization matches the finalization rules of the table at the
last line index; every error carries the file path of the parser; and the Display
rendering reports the stored 0-indexed line as a 1-indexed line number. -/
theorem C5_transition_table (p : Parser) (st : State) (l : Line) (n : Nat) :
    p.parse_line st l n = spec_transition p st l n ∧
    p.finalize st n = spec_finalize p st n ∧
    (∀ e : ParserError, p.parse_line st l n = .error e → e.file_path = p.file_path) ∧
    (∀ e : ParserError, e.display = (e.message, e.file_path, e.line_num + 1)) := by
  refine ⟨?_, ?_, ?_, fun e => rfl⟩
  · cases st <;> cases l <;>
      simp only [Parser.parse_line, spec_transition, bind_ok_eq_map]
  · cases st <;> rfl
  · cases st <;> cases l <;> intro e h <;>
      simp only [Parser.parse_line, bind_ok_eq_map] at h <;>
      first
        | exact Except.noConfusion h
        | (injection h with h1; rw [← h1])
        | (rw [parse_cloze_cards_error_eq _ _ _ _ _ (map_error_inv h)])

/-- Witness for C5_transition_table at a concrete erroneous step: an answer
tag in the Initial state carries the file path of the parser. -/
theorem C5_witness :
    (⟨"Found answer tag without a question.", asciiBytes "deck.md", 0⟩ :
      ParserError).file_path = sample_ctx.file_path :=
  (C5_transition_table sample_ctx State.Initial (Line.StartAnswer []) 0).2.2.1
    ⟨"Found answer tag without a question.", asciiBytes "deck.md", 0⟩ rfl

/-! ## C8: the intra-parse, order-preserving dedup -/

theorem dedup_first_foldl (l : List Card) (acc : List Card) (seen : List Bytes) :
    (l.foldl
      (fun (acc : List Card × List Bytes) c =>
        if c.hash ∈ acc.2 then acc else (acc.1 ++ [c], c.hash :: acc.2))
      (acc, seen)).1 = acc ++ keep_new seen l := by
  induction l generalizing acc seen with
  | nil => simp [keep_new]
  | cons c t ih =>
    simp only [List.foldl_cons, keep_new]
    by_cases hm : c.hash ∈ seen
    · rw [if_pos hm, if_pos hm, ih]
    · rw [if_neg hm, if_neg hm, ih, List.append_assoc]
      rfl

theorem dedup_first_eq_keep_new (l : List Card) : dedup_first l = keep_new [] l := by
  unfold dedup_first
  rw [dedup_first_foldl l [] []]
  simp

theorem keep_new_eq_spec (l : List Card) :
    ∀ seen, keep_new seen l =
      spec_first_occurrence (l.filter (fun c => decide (c.hash ∉ seen))) := by
  induction l with
  | nil => intro seen; simp [keep_new, spec_first_occurrence]
  | cons c t ih =>
    intro seen
    by_cases hm : c.hash ∈ seen
    · rw [keep_new, if_pos hm, ih seen, List.filter_cons]
      simp [hm]
    · have hfc : ((c :: t).filter fun c2 => decide (c2.hash ∉ seen)) =
          c :: (t.filter fun c2 => decide (c2.hash ∉ seen)) := by
        simp [hm]
      rw [keep_new, if_neg hm, ih (c.hash :: seen), hfc]
      have hspec : spec_first_occurrence (c :: (t.filter fun c2 => decide (c2.hash ∉ seen))) =
          c :: spec_first_occurrence ((t.filter fun c2 => decide (c2.hash ∉ seen)).filter
            (fun d => !(d.hash == c.hash))) := by
        simp [spec_first_occurrence]
      rw [hspec, List.filter_filter]
      have hpred : (t.filter fun c2 => decide (c2.hash ∉ c.hash :: seen)) =
          (t.filter fun a => !(a.hash == c.hash) && decide (a.hash ∉ seen)) := by
        apply List.filter_congr
        intro x _
        by_cases h1 : x.hash = c.hash <;> by_cases h2 : x.hash ∈ seen <;>
          simp [h1, h2]
      rw [hpred]

theorem keep_new_sublist (l : List Card) : ∀ seen, List.Sublist (keep_new seen l) l := by
  induction l with
  | nil => intro seen; simp [keep_new]
  | cons c t ih =>
    intro seen
    rw [keep_new]
    by_cases hm : c.hash ∈ seen
    · rw [if_pos hm]
      exact (ih seen).trans (List.sublist_cons_self c t)
    · rw [if_neg hm]
      exact (ih (c.hash :: seen)).cons₂ c

theorem keep_new_nodup (l : List Card) :
    ∀ seen, ((keep_new seen l).map Card.hash).Nodup ∧
      ∀ h ∈ (keep_new seen l).map Card.hash, h ∉ seen := by
  induction l with
  | nil => intro seen; simp [keep_new]
  | cons c t ih =>
    intro seen
    rw [keep_new]
    by_cases hm : c.hash ∈ seen
    · rw [if_pos hm]; exact ih seen
    · rw [if_neg hm]
      obtain ⟨ihn, ihs⟩ := ih (c.hash :: seen)
      simp only [List.map_cons, List.nodup_cons]
      refine ⟨⟨fun hc => ?_, ihn⟩, fun h hh => ?_⟩
      · exact (ihs c.hash hc) (List.mem_cons_self _ _)
      · rcases List.mem_cons.1 hh with h1 | h2
        · rw [h1]; exact hm
        · intro hs
          exact (ihs h h2) (List.mem_cons.2 (Or.inr hs))

/-- C8: for every successful parse, the returned sequence is the
order-preserving first-occurrence dedup of the emitted card sequence — it is
a sublist of the emitted sequence that retains exactly the first-emitted card
of each distinct hash, and no two returned cards share a hash; and the
concrete instance given in the spec: a file with the same Q/A card twice yields exactly
one card. -/
theorem C8_intra_parse_dedup :
    (∀ (p : Parser) (text : Bytes) (raw : List Card),
      p.parseRaw text = .ok raw →
        p.parse text = .ok (spec_first_occurrence raw) ∧
        ((spec_first_occurrence raw).map Card.hash).Nodup ∧
        List.Sublist (spec_first_occurrence raw) raw) ∧
    (sample_ctx.parse (asciiBytes "Q: foo\nA: bar\n\nQ: foo\nA: bar\n\n")).map
        List.length = .ok 1 := by
  constructor
  · intro p text raw hraw
    have hsp : spec_first_occurrence raw = dedup_first raw := by
      rw [dedup_first_eq_keep_new, keep_new_eq_spec]
      have : (raw.filter fun c => decide (c.hash ∉ ([] : List Bytes))) = raw := by
        apply List.filter_eq_self.2
        intro a _
        simp
      rw [this]
    refine ⟨?_, ?_, ?_⟩
    · show (p.parseRaw text >>= fun cs => pure (dedup_first cs)) = _
      rw [hraw, hsp]
      rfl
    · rw [hsp, dedup_first_eq_keep_new]
      exact (keep_new_nodup raw []).1
    · rw [hsp, dedup_first_eq_keep_new]
      exact keep_new_sublist raw []
  · rfl

/-- Witness for the universally quantified part of C8 at the empty input. -/
theorem C8_witness :
    sample_ctx.parse [] = .ok (spec_first_occurrence []) ∧
    ((spec_first_occurrence ([] : List Card)).map Card.hash).Nodup ∧
    List.Sublist (spec_first_occurrence ([] : List Card)) [] :=
  C8_intra_parse_dedup.1 sample_ctx [] [] rfl

/-! ## C7: the cross-file sort and dedup of the deck loader -/

theorem bytesLe_refl (a : Bytes) : bytesLe a a = true := by
  induction a with
  | nil => rfl
  | cons x xs ih => simp [bytesLe, ih]

theorem bytesLe_total (a b : Bytes) : bytesLe a b = true ∨ bytesLe b a = true := by
  induction a generalizing b with
  | nil => left; rfl
  | cons x xs ih =>
    cases b with
    | nil => right; rfl
    | cons y ys =>
      rcases Nat.lt_trichotomy x y with h | h | h
      · left; simp [bytesLe, h]
      · subst h
        rcases ih ys with h2 | h2
        · left; simp [bytesLe, h2]
        · right; simp [bytesLe, h2]
      · right; simp [bytesLe, h]

theorem bytesLe_trans {a b c : Bytes} (h1 : bytesLe a b = true) (h2 : bytesLe b c = true) :
    bytesLe a c = true := by
  induction a generalizing b c with
  | nil => rfl
  | cons x xs ih =>
    cases b with
    | nil => simp [bytesLe] at h1
    | cons y ys =>
      cases c with
      | nil => simp [bytesLe] at h2
      | cons z zs =>
        simp only [bytesLe] at h1 h2 ⊢
        rcases Nat.lt_trichotomy x y with hxy | hxy | hxy <;>
          rcases Nat.lt_trichotomy y z with hyz | hyz | hyz <;>
          simp_all <;>
          try omega
        exact ih h1 h2

theorem bytesLe_antisymm {a b : Bytes} (h1 : bytesLe a b = true) (h2 : bytesLe b a = true) :
    a = b := by
  induction a generalizing b with
  | nil =>
    cases b with
    | nil => rfl
    | cons y ys => simp [bytesLe] at h2
  | cons x xs ih =>
    cases b with
    | nil => simp [bytesLe] at h1
    | cons y ys =>
      simp only [bytesLe] at h1 h2
      rcases Nat.lt_trichotomy x y with hxy | hxy | hxy
      · simp [hxy, Nat.lt_asymm hxy, Nat.ne_of_lt hxy] at h2
      · subst hxy
        simp only [Nat.lt_irrefl, if_false] at h1 h2
        rw [ih h1 h2]
      · simp [hxy, Nat.lt_asymm hxy] at h1

theorem dedup_go_sublist (l : List Card) : ∀ a, List.Sublist (dedup_go a l) l := by
  induction l with
  | nil => intro a; simp [dedup_go]
  | cons b t ih =>
    intro a
    rw [dedup_go]
    by_cases he : a.hash == b.hash
    · rw [if_pos he]
      exact (ih a).trans (List.sublist_cons_self b t)
    · rw [if_neg he]
      exact (ih b).cons₂ b

theorem dedup_go_pairwise (l : List Card) :
    ∀ a, List.Pairwise hashLe (a :: l) →
      List.Pairwise (fun x y => hashLe x y ∧ x.hash ≠ y.hash) (a :: dedup_go a l) := by
  induction l with
  | nil => intro a _; simp [dedup_go]
  | cons b t ih =>
    intro a hp
    rw [List.pairwise_cons] at hp
    obtain ⟨ha, hbt⟩ := hp
    rw [List.pairwise_cons] at hbt
    obtain ⟨hb, ht⟩ := hbt
    rw [dedup_go]
    by_cases he : a.hash == b.hash
    · rw [if_pos he]
      have heq : a.hash = b.hash := by simpa using he
      apply ih a
      rw [List.pairwise_cons]
      refine ⟨fun x hx => ha x (List.mem_cons.2 (Or.inr hx)), ht⟩
    · rw [if_neg he]
      have hne : a.hash ≠ b.hash := by simpa using he
      have hmain := ih b (List.pairwise_cons.2 ⟨hb, ht⟩)
      rw [List.pairwise_cons]
      refine ⟨fun x hx => ?_, hmain⟩
      rcases List.mem_cons.1 hx with h1 | h2
      · subst h1
        exact ⟨ha x (List.mem_cons_self _ _), hne⟩
      · have hxt : x ∈ t := (dedup_go_sublist t b).subset h2
        refine ⟨ha x (List.mem_cons.2 (Or.inr hxt)), fun hax => ?_⟩
        have h3 : bytesLe a.hash b.hash = true := ha b (List.mem_cons_self _ _)
        have h4 : bytesLe b.hash x.hash = true := hb x hxt
        rw [← hax] at h4
        exact hne (bytesLe_antisymm h3 h4)

theorem dedup_consecutive_strict {l : List Card} (h : List.Pairwise hashLe l) :
    List.Pairwise (fun x y => hashLe x y ∧ x.hash ≠ y.hash) (dedup_consecutive l) := by
  cases l with
  | nil => simp [dedup_consecutive]
  | cons a t =>
    rw [dedup_consecutive]
    exact dedup_go_pairwise t a h

/-- C7: every successful deck load returns a sequence sorted in ascending
hash order with pairwise distinct hashes; and the concrete instance given in the spec:
two files with byte-identical single cards load to exactly one card. -/
theorem C7_deck_sorted_nodup :
    (∀ (files : List (Bytes × Bytes)) (cs : List Card),
      parse_deck files = .ok cs →
        List.Pairwise hashLe cs ∧ (cs.map Card.hash).Nodup) ∧
    (parse_deck [(asciiBytes "d/f1.md", asciiBytes "Q: foo\nA: bar"),
                 (asciiBytes "d/f2.md", asciiBytes "Q: foo\nA: bar")]).map
        List.length = .ok 1 := by
  constructor
  · intro files cs h
    have hstep : ∃ all, load_files files = .ok all ∧
        cs = dedup_consecutive (List.insertionSort hashLe all) := by
      unfold parse_deck at h
      cases hl : load_files files with
      | error e => rw [hl] at h; exact absurd h (by simp [Bind.bind, Except.bind])
      | ok all =>
        rw [hl] at h
        refine ⟨all, rfl, ?_⟩
        have h5 : (Except.ok (dedup_consecutive (List.insertionSort hashLe all)) :
            Except DeckError (List Card)) = Except.ok cs := h
        injection h5 with h2
        exact h2.symm
    obtain ⟨all, _, hcs⟩ := hstep
    haveI : IsTotal Card hashLe := ⟨fun a b => bytesLe_total a.hash b.hash⟩
    haveI : IsTrans Card hashLe := ⟨fun _ _ _ h1 h2 => bytesLe_trans h1 h2⟩
    have hsorted : List.Pairwise hashLe (List.insertionSort hashLe all) :=
      List.sorted_insertionSort hashLe all
    have hstrict := dedup_consecutive_strict hsorted
    rw [hcs]
    constructor
    · exact hstrict.imp (fun h => h.1)
    · have : List.Pairwise (fun x y : Card => x.hash ≠ y.hash)
          (dedup_consecutive (List.insertionSort hashLe all)) :=
        hstrict.imp (fun h => h.2)
      exact List.pairwise_map.2 this
  · rfl

/-- Witness for the universally quantified part of C7 at the empty file set. -/
theorem C7_witness :
    List.Pairwise hashLe ([] : List Card) ∧ (([] : List Card).map Card.hash).Nodup :=
  C7_deck_sorted_nodup.1 [] [] rfl

/-! ## C6: the effective deck name -/

theorem map_ok_inv {α β : Type} {x : Except ParserError α} {f : α → β} {y : β}
    (h : x.map f = .ok y) : ∃ a, x = .ok a ∧ f a = y := by
  cases x with
  | error e => simp [Except.map] at h
  | ok a =>
    refine ⟨a, rfl, ?_⟩
    simpa [Except.map] using h

/-- Every card built by parse_cloze_cards carries the deck name of the parser. -/
theorem parse_cloze_cards_deck (p : Parser) (t : Bytes) (s n : Nat) (cs : List Card)
    (h : p.parse_cloze_cards t s n = .ok cs) :
    ∀ c ∈ cs, c.deck_name = p.deck_name := by
  simp only [Parser.parse_cloze_cards] at h
  split at h
  · exact absurd h (by simp)
  · injection h with h1
    subst h1
    intro c hc
    simp only [List.mem_map] at hc
    obtain ⟨x, _, hx⟩ := hc
    rw [← hx]
    rfl

theorem bind_const_ok_inv {α : Type} {x : Except ParserError α} {st2 : State} {r : α × State}
    (h : (x >>= fun a => Except.ok (a, st2)) = .ok r) : x = .ok r.1 := by
  cases x with
  | error e => exact Except.noConfusion h
  | ok a =>
    injection h with h1
    rw [← h1]

/-- Every card emitted by a parse_line step carries the deck name of the parser. -/
theorem parse_line_deck (p : Parser) (st : State) (l : Line) (n : Nat)
    (r : List Card × State) (h : p.parse_line st l n = .ok r) :
    ∀ c ∈ r.1, c.deck_name = p.deck_name := by
  cases st <;> cases l <;> simp only [Parser.parse_line] at h <;>
    first
      | exact Except.noConfusion h
      | (injection h with h1
         subst h1
         simp [Card.new])
      | exact parse_cloze_cards_deck _ _ _ _ _ (bind_const_ok_inv h)

/-- Every card emitted by finalize carries the deck name of the parser. -/
theorem finalize_deck (p : Parser) (st : State) (n : Nat) (cs : List Card)
    (h : p.finalize st n = .ok cs) :
    ∀ c ∈ cs, c.deck_name = p.deck_name := by
  cases st <;> simp only [Parser.finalize] at h
  · injection h with h1
    subst h1
    simp
  · exact absurd h (by simp)
  · injection h with h1
    subst h1
    intro c hc
    rw [List.mem_singleton] at hc
    subst hc
    rfl
  · exact parse_cloze_cards_deck p _ _ n cs h

theorem run_lines_deck (p : Parser) (ls : List Bytes) :
    ∀ (st : State) (i : Nat) (r : List Card × State), p.run_lines st i ls = .ok r →
      ∀ c ∈ r.1, c.deck_name = p.deck_name := by
  induction ls with
  | nil =>
    intro st i r h
    simp only [Parser.run_lines] at h
    injection h with h1
    subst h1
    simp
  | cons l ls ih =>
    intro st i r h
    simp only [Parser.run_lines] at h
    cases hr : p.parse_line st (Line.read l) i with
    | error e =>
      rw [hr] at h
      exact absurd h (by simp [Bind.bind, Except.bind])
    | ok r1 =>
      rw [hr] at h
      simp only [Bind.bind, Except.bind] at h
      cases hrest : p.run_lines r1.2 (i + 1) ls with
      | error e =>
        rw [hrest] at h
        exact absurd h (by simp)
      | ok r2 =>
        rw [hrest] at h
        injection h with h1
        subst h1
        intro c hc
        rcases List.mem_append.1 hc with h2 | h2
        · exact parse_line_deck p st (Line.read l) i r1 hr c h2
        · exact ih r1.2 (i + 1) r2 hrest c h2

/-- Every card returned by Parser::parse carries the deck name of the parser. -/
theorem parse_deck_name (p : Parser) (text : Bytes) (cs : List Card)
    (h : p.parse text = .ok cs) :
    ∀ c ∈ cs, c.deck_name = p.deck_name := by
  unfold Parser.parse at h
  cases hraw : p.parseRaw text with
  | error e =>
    rw [hraw] at h
    exact absurd h (by simp [Bind.bind, Except.bind])
  | ok raw =>
    rw [hraw] at h
    simp only [Bind.bind, Except.bind, pure, Except.pure] at h
    injection h with h1
    subst h1
    intro c hc
    have hsub : c ∈ raw := by
      rw [dedup_first_eq_keep_new] at hc
      exact (keep_new_sublist raw []).subset hc
    simp only [Parser.parseRaw] at hraw
    cases hrl : p.run_lines State.Initial 0 (rustLines text) with
    | error e =>
      rw [hrl] at hraw
      exact absurd hraw (by simp [Bind.bind, Except.bind])
    | ok r =>
      rw [hrl] at hraw
      simp only [Bind.bind, Except.bind] at hraw
      cases hf : p.finalize r.2 (if (rustLines text).isEmpty = true then 0
          else (rustLines text).length - 1) with
      | error e =>
        rw [hf] at hraw
        exact absurd hraw (by simp)
      | ok fin =>
        rw [hf] at hraw
        simp only [pure, Except.pure] at hraw
        injection hraw with h2
        subst h2
        rcases List.mem_append.1 hsub with h3 | h3
        · exact run_lines_deck p (rustLines text) State.Initial 0 r hrl c h3
        · exact finalize_deck p r.2 _ fin hf c h3

theorem load_file_deck (f : Bytes × Bytes) (cs : List Card)
    (h : load_file f = .ok cs) :
    ∀ c ∈ cs, effective_deck_name f.1 f.2 = some c.deck_name := by
  unfold load_file at h
  split at h
  · cases hfm : extract_frontmatter f.2 with
    | error e =>
      rw [hfm] at h
      exact absurd h (by simp [Bind.bind, Except.bind])
    | ok r =>
      rw [hfm] at h
      simp only [Bind.bind, Except.bind] at h
      cases hp : (Parser.mk (r.1.name.getD ((file_stem f.1).getD (asciiBytes "None"))) f.1).parse
          r.2 with
      | error e =>
        rw [hp] at h
        exact absurd h (by simp [Except.mapError])
      | ok cs2 =>
        rw [hp] at h
        simp only [Except.mapError] at h
        injection h with h1
        subst h1
        intro c hc
        unfold effective_deck_name
        rw [hfm]
        rw [parse_deck_name _ _ _ hp c hc]
  · injection h with h1
    subst h1
    simp

theorem load_files_deck (files : List (Bytes × Bytes)) :
    ∀ (all : List Card), load_files files = .ok all →
      ∀ c ∈ all, ∃ f ∈ files, effective_deck_name f.1 f.2 = some c.deck_name := by
  induction files with
  | nil =>
    intro all h
    simp only [load_files] at h
    injection h with h1
    subst h1
    simp
  | cons f fs ih =>
    intro all h
    simp only [load_files] at h
    cases hf : load_file f with
    | error e =>
      rw [hf] at h
      exact absurd h (by simp [Bind.bind, Except.bind])
    | ok cs1 =>
      rw [hf] at h
      simp only [Bind.bind, Except.bind] at h
      cases hfs : load_files fs with
      | error e =>
        rw [hfs] at h
        exact absurd h (by simp)
      | ok rest =>
        rw [hfs] at h
        injection h with h1
        subst h1
        intro c hc
        rcases List.mem_append.1 hc with h2 | h2
        · exact ⟨f, List.mem_cons_self _ _, load_file_deck f cs1 hf c h2⟩
        · obtain ⟨g, hg, hgd⟩ := ih rest hfs c h2
          exact ⟨g, List.mem_cons.2 (Or.inr hg), hgd⟩

theorem dedup_consecutive_sublist (l : List Card) :
    List.Sublist (dedup_consecutive l) l := by
  cases l with
  | nil => simp [dedup_consecutive]
  | cons a t =>
    rw [dedup_consecutive]
    exact (dedup_go_sublist t a).cons₂ a

/-- C6 (counterexample): a file whose frontmatter contains an empty `name`
string gets the empty string as its deck name, not the base name
"notes" — parse_deck resolves the name with Option::unwrap_or_else, which
uses any present frontmatter name, empty or not. -/
theorem C6_counterexample :
    (parse_deck [(asciiBytes "d/notes.md",
        asciiBytes "---\nname = \"\"\n---\n\nQ: a\nA: b")]).map
      (List.map (fun c => c.deck_name)) = .ok [([] : Bytes)] ∧
    decide (([] : Bytes) = asciiBytes "notes") = false := ⟨rfl, by decide⟩

/-- C6 (amended): the effective deck name of every card a deck load produces
is the frontmatter `name` value whenever the key is present (even when its
value is the empty string); otherwise the base name of the file without extension;
and the fixed literal "None" when the base name cannot be decoded. -/
theorem C6_effective_deck_name (files : List (Bytes × Bytes)) (cs : List Card)
    (h : parse_deck files = .ok cs) :
    ∀ c ∈ cs, ∃ f ∈ files, effective_deck_name f.1 f.2 = some c.deck_name := by
  unfold parse_deck at h
  cases hl : load_files files with
  | error e =>
    rw [hl] at h
    exact absurd h (by simp [Bind.bind, Except.bind])
  | ok all =>
    rw [hl] at h
    simp only [Bind.bind, Except.bind, pure, Except.pure] at h
    injection h with h1
    subst h1
    intro c hc
    have h2 : c ∈ List.insertionSort hashLe all :=
      (dedup_consecutive_sublist _).subset hc
    have h3 : c ∈ all := (List.perm_insertionSort hashLe all).subset h2
    exact load_files_deck files all hl c h3

/-- Witness for C6_effective_deck_name at a concrete single-file deck. -/
theorem C6_witness :
    ∃ f ∈ [(asciiBytes "d/notes.md", asciiBytes "Q: a\nA: b")],
      effective_deck_name f.1 f.2 =
        some (Card.new (asciiBytes "notes") (asciiBytes "d/notes.md") (0, 1)
          (CardContent.new_basic (asciiBytes "a") (asciiBytes "b"))).deck_name :=
  C6_effective_deck_name [(asciiBytes "d/notes.md", asciiBytes "Q: a\nA: b")]
    [Card.new (asciiBytes "notes") (asciiBytes "d/notes.md") (0, 1)
      (CardContent.new_basic (asciiBytes "a") (asciiBytes "b"))]
    rfl
    (Card.new (asciiBytes "notes") (asciiBytes "d/notes.md") (0, 1)
      (CardContent.new_basic (asciiBytes "a") (asciiBytes "b")))
    (List.mem_singleton.2 rfl)

/-! ## C9: totality and progress of the scanning loop -/

theorem startsWith_le {t s : Bytes} (h : startsWith t s = true) : t.length ≤ s.length := by
  induction t generalizing s with
  | nil => simp
  | cons x xs ih =>
    cases s with
    | nil => simp [startsWith] at h
    | cons y ys =>
      simp only [startsWith, Bool.and_eq_true] at h
      simpa using ih h.2

theorem tag_some {t s r : Bytes} (h : tag t s = some r) :
    List.IsSuffix r s ∧ r.length + t.length = s.length := by
  unfold tag at h
  split at h
  · injection h with h1
    subst h1
    rename_i hst
    refine ⟨List.drop_suffix _ _, ?_⟩
    have := startsWith_le hst
    simp [List.length_drop]
    omega
  · exact Option.noConfusion h

theorem line_ending_some {s r : Bytes} (h : line_ending s = some r) :
    List.IsSuffix r s ∧ r.length < s.length := by
  unfold line_ending at h
  split at h
  · injection h with h1
    subst h1
    exact ⟨⟨[10], rfl⟩, by simp only [List.length_cons]; omega⟩
  · injection h with h1
    subst h1
    exact ⟨⟨[13, 10], rfl⟩, by simp only [List.length_cons]; omega⟩
  · exact Option.noConfusion h

theorem escRun_some {ds s r : Bytes} (h : escRun ds s = some r) :
    List.IsSuffix r s ∧ (s ≠ [] → r.length < s.length) := by
  cases s with
  | nil =>
    simp only [escRun] at h
    injection h with h1
    subst h1
    exact ⟨List.nil_suffix, fun hne => absurd rfl hne⟩
  | cons b t =>
    simp only [escRun] at h
    split at h
    · exact Option.noConfusion h
    · rename_i hmem
      injection h with h1
      subst h1
      refine ⟨List.dropWhile_suffix _, fun _ => ?_⟩
      rw [List.dropWhile_cons]
      simp only [hmem, not_false_eq_true, decide_True, if_true]
      have hsuf2 : List.IsSuffix (t.dropWhile fun c => decide (c ∉ ds)) t :=
        List.dropWhile_suffix _
      have hle := hsuf2.length_le
      simp only [List.length_cons]
      omega

theorem plain_none {b : Nat} {t : Bytes} (h : plain (b :: t) = none) :
    b = 36 ∨ b = 96 ∨ b = 124 := by
  simp only [plain, escRun] at h
  split at h
  · rename_i hmem
    simpa using hmem
  · exact Option.noConfusion h

theorem inline_latex_some {s r : Bytes} (h : inline_latex s = some r) :
    List.IsSuffix r s ∧ r.length < s.length := by
  unfold inline_latex at h
  cases h1 : tag [36] s with
  | none => rw [h1] at h; exact Option.noConfusion h
  | some r1 =>
    rw [h1] at h
    simp only [Option.bind_eq_bind, Option.some_bind] at h
    cases h2 : escRun [36] r1 with
    | none => rw [h2] at h; exact Option.noConfusion h
    | some r2 =>
      rw [h2] at h
      simp only [Option.some_bind] at h
      obtain ⟨hs1, hl1⟩ := tag_some h1
      obtain ⟨hs2, _⟩ := escRun_some h2
      obtain ⟨hs3, hl3⟩ := tag_some h
      have := hs2.length_le
      refine ⟨hs3.trans (hs2.trans hs1), ?_⟩
      simp at hl1 hl3
      omega

theorem block_latex_some {s r : Bytes} (h : block_latex s = some r) :
    List.IsSuffix r s ∧ r.length < s.length := by
  unfold block_latex at h
  cases h1 : tag [36, 36] s with
  | none => rw [h1] at h; exact Option.noConfusion h
  | some r1 =>
    rw [h1] at h
    simp only [Option.bind_eq_bind, Option.some_bind] at h
    cases h2 : escRun [36] r1 with
    | none => rw [h2] at h; exact Option.noConfusion h
    | some r2 =>
      rw [h2] at h
      simp only [Option.some_bind] at h
      obtain ⟨hs1, hl1⟩ := tag_some h1
      obtain ⟨hs2, _⟩ := escRun_some h2
      obtain ⟨hs3, hl3⟩ := tag_some h
      have := hs2.length_le
      refine ⟨hs3.trans (hs2.trans hs1), ?_⟩
      simp at hl1 hl3
      omega

theorem inline_code_some {s r : Bytes} (h : inline_code s = some r) :
    List.IsSuffix r s ∧ r.length < s.length := by
  unfold inline_code at h
  cases h1 : tag [96] s with
  | none => rw [h1] at h; exact Option.noConfusion h
  | some r1 =>
    rw [h1] at h
    simp only [Option.bind_eq_bind, Option.some_bind] at h
    obtain ⟨hs1, hl1⟩ := tag_some h1
    obtain ⟨hs3, hl3⟩ := tag_some h
    have hs2 : List.IsSuffix (r1.dropWhile fun c => !(c == 96 || c == 10 || c == 13)) r1 :=
      List.dropWhile_suffix _
    have hle := hs2.length_le
    refine ⟨hs3.trans (hs2.trans hs1), ?_⟩
    simp only [List.length_cons, List.length_nil] at hl1 hl3
    omega

theorem many_till_end_some {fence : Bytes} {s r : Bytes} (h : many_till_end fence s = some r) :
    List.IsSuffix r s ∧ r.length < s.length := by
  induction s with
  | nil => exact Option.noConfusion h
  | cons b t ih =>
    rw [many_till_end] at h
    split at h
    · rename_i r2 hterm
      injection h with h1
      subst h1
      cases h2 : line_ending (b :: t) with
      | none => rw [h2] at hterm; exact Option.noConfusion hterm
      | some r3 =>
        rw [h2] at hterm
        simp only [Option.bind_eq_bind, Option.some_bind] at hterm
        obtain ⟨hs2, hl2⟩ := line_ending_some h2
        obtain ⟨hs3, hl3⟩ := tag_some hterm
        have := hs3.length_le
        exact ⟨hs3.trans hs2, by omega⟩
    · obtain ⟨hs, hl⟩ := ih h
      exact ⟨hs.trans (List.suffix_cons b t), by simp; omega⟩

theorem block_code_some {s r : Bytes} (h : block_code s = some r) :
    List.IsSuffix r s ∧ r.length < s.length := by
  simp only [block_code] at h
  split at h
  · exact Option.noConfusion h
  · rename_i hfence
    cases h1 : tag (s.takeWhile fun c => c == 96) s with
    | none => rw [h1] at h; exact Option.noConfusion h
    | some r1 =>
      rw [h1] at h
      simp only [Option.bind_eq_bind, Option.some_bind] at h
      cases h2 : line_ending r1 with
      | none => rw [h2] at h; exact Option.noConfusion h
      | some r2 =>
        rw [h2] at h
        simp only [Option.some_bind] at h
        cases h3 : many_till_end (s.takeWhile fun c => c == 96) r2 with
        | none => rw [h3] at h; exact Option.noConfusion h
        | some r3 =>
          rw [h3] at h
          simp only [Option.some_bind] at h
          cases h4 : line_ending r3 with
          | none => rw [h4] at h; exact Option.noConfusion h
          | some r4 =>
            rw [h4] at h
            simp only [Option.some_bind] at h
            cases h5 : tag (s.takeWhile fun c => c == 96) r4 with
            | none => rw [h5] at h; exact Option.noConfusion h
            | some r5 =>
              rw [h5] at h
              simp only [Option.some_bind] at h
              injection h with h1
              subst h1
              obtain ⟨hs1, hl1⟩ := tag_some h1
              obtain ⟨hs2, hl2⟩ := line_ending_some h2
              obtain ⟨hs3, hl3⟩ := many_till_end_some h3
              obtain ⟨hs4, hl4⟩ := line_ending_some h4
              obtain ⟨hs5, hl5⟩ := tag_some h5
              have hopt : List.IsSuffix ((line_ending r5).getD r5) r5 ∧
                  ((line_ending r5).getD r5).length ≤ r5.length := by
                cases h6 : line_ending r5 with
                | none => simp [List.suffix_refl]
                | some r6 =>
                  obtain ⟨hs6, hl6⟩ := line_ending_some h6
                  exact ⟨by simpa using hs6, by simpa using Nat.le_of_lt hl6⟩
              refine ⟨hopt.1.trans (hs5.trans (hs4.trans (hs3.trans (hs2.trans hs1)))), ?_⟩
              have := hopt.2
              omega

theorem alt_non_cloze_some {s r : Bytes} (h : alt_non_cloze s = some r) :
    List.IsSuffix r s ∧ (s ≠ [] → r.length < s.length) := by
  unfold alt_non_cloze at h
  split at h
  · rename_i hb
    injection h with h1
    subst h1
    obtain ⟨hs, hl⟩ := block_code_some hb
    exact ⟨hs, fun _ => hl⟩
  · split at h
    · rename_i hb
      injection h with h1
      subst h1
      obtain ⟨hs, hl⟩ := block_latex_some hb
      exact ⟨hs, fun _ => hl⟩
    · split at h
      · rename_i hb
        injection h with h1
        subst h1
        obtain ⟨hs, hl⟩ := inline_latex_some hb
        exact ⟨hs, fun _ => hl⟩
      · split at h
        · rename_i hb
          injection h with h1
          subst h1
          obtain ⟨hs, hl⟩ := inline_code_some hb
          exact ⟨hs, fun _ => hl⟩
        · exact escRun_some h

theorem many0_go_suffix : ∀ (fuel : Nat) (s r : Bytes),
    many0_go fuel s = some r → List.IsSuffix r s := by
  intro fuel
  induction fuel with
  | zero => intro s r h; exact Option.noConfusion h
  | succ fuel ih =>
    intro s r h
    rw [many0_go] at h
    split at h
    · injection h with h1
      subst h1
      exact List.suffix_rfl
    · rename_i s1 halt
      split at h
      · exact Option.noConfusion h
      · exact (ih s1 r h).trans (alt_non_cloze_some halt).1

theorem cloze_some {s cap r : Bytes} (h : cloze s = some (cap, r)) :
    List.IsSuffix r s ∧ r.length < s.length := by
  unfold cloze at h
  cases h1 : tag [124, 124] s with
  | none => rw [h1] at h; exact Option.noConfusion h
  | some r1 =>
    rw [h1] at h
    simp only [Option.bind_eq_bind, Option.some_bind] at h
    cases h2 : many0_non_cloze r1 with
    | none => rw [h2] at h; exact Option.noConfusion h
    | some r2 =>
      rw [h2] at h
      simp only [Option.some_bind] at h
      cases h3 : tag [124, 124] r2 with
      | none => rw [h3] at h; exact Option.noConfusion h
      | some r3 =>
        rw [h3] at h
        simp only [Option.some_bind] at h
        injection h with h1
        rw [Prod.mk.injEq] at h1
        obtain ⟨_, hr⟩ := h1
        subst hr
        obtain ⟨hs1, hl1⟩ := tag_some h1
        obtain ⟨hs3, hl3⟩ := tag_some h3
        have hs2 : List.IsSuffix r2 r1 := many0_go_suffix _ _ _ h2
        have := hs2.length_le
        refine ⟨hs3.trans (hs2.trans hs1), ?_⟩
        simp at hl1 hl3
        omega

theorem next_token_progress {s : Bytes} {tok : Bytes × Bool} {rem : Bytes}
    (hne : s ≠ []) (h : next_token s = some (tok, rem)) :
    List.IsSuffix rem s ∧ rem.length < s.length := by
  unfold next_token at h
  split at h
  · rename_i cap r2 hc
    injection h with h1
    rw [Prod.mk.injEq] at h1
    obtain ⟨_, hr⟩ := h1
    subst hr
    exact cloze_some hc
  · split at h
    · rename_i halt
      injection h with h1
      rw [Prod.mk.injEq] at h1
      obtain ⟨_, hr⟩ := h1
      subst hr
      obtain ⟨hs, hl⟩ := alt_non_cloze_some halt
      exact ⟨hs, hl hne⟩
    · exact Option.noConfusion h

theorem next_token_none_head {b : Nat} {t : Bytes} (h : next_token (b :: t) = none) :
    b = 36 ∨ b = 96 ∨ b = 124 := by
  unfold next_token at h
  split at h
  · exact Option.noConfusion h
  · split at h
    · exact Option.noConfusion h
    · rename_i halt
      unfold alt_non_cloze at halt
      split at halt
      · exact Option.noConfusion halt
      · split at halt
        · exact Option.noConfusion halt
        · split at halt
          · exact Option.noConfusion halt
          · split at halt
            · exact Option.noConfusion halt
            · exact plain_none halt

theorem utf8Valid_ascii_tail {b : Nat} {t : Bytes} (hb : b ≤ 127)
    (h : utf8Valid (b :: t) = true) : utf8Valid t = true := by
  unfold utf8Valid at h ⊢
  simp only [List.length_cons, utf8ValidGo, if_pos hb] at h
  exact h

theorem scan_go_cons_some {fuel b : Nat} {t : Bytes} {tok : Bytes × Bool} {rem : Bytes}
    (h : next_token (b :: t) = some (tok, rem)) :
    scan_go (fuel + 1) (b :: t) = tok :: scan_go fuel rem := by
  simp only [scan_go, h]

theorem scan_go_cons_none {fuel b : Nat} {t : Bytes} (h : next_token (b :: t) = none) :
    scan_go (fuel + 1) (b :: t) = scan_go fuel t := by
  simp only [scan_go, h]

theorem scan_go_fuel : ∀ (f1 : Nat) (s : Bytes) (f2 : Nat),
    s.length ≤ f1 → s.length ≤ f2 → scan_go f1 s = scan_go f2 s := by
  intro f1
  induction f1 with
  | zero =>
    intro s f2 h1 _
    have hs : s = [] := List.eq_nil_of_length_eq_zero (Nat.le_zero.1 h1)
    subst hs
    cases f2 <;> rfl
  | succ f1 ih =>
    intro s f2 h1 h2
    cases s with
    | nil => cases f2 <;> rfl
    | cons b t =>
      cases f2 with
      | zero => simp at h2
      | succ f2 =>
        cases hnt : next_token (b :: t) with
        | some tr =>
          obtain ⟨tok, rem⟩ := tr
          obtain ⟨hsuf, hlt⟩ := next_token_progress (by simp) hnt
          simp only [List.length_cons] at h1 h2 hlt
          rw [scan_go_cons_some hnt, scan_go_cons_some hnt,
            ih rem f2 (by omega) (by omega)]
        | none =>
          simp only [List.length_cons] at h1 h2
          rw [scan_go_cons_none hnt, scan_go_cons_none hnt]
          exact ih t f2 (by omega) (by omega)

/-- C9: the scanning loop is total and never rejects a block.  (1) Every
successful token consumes at least one byte, so the loop makes progress and
the length fuel never runs out: scan_go computes the same token list for any
fuel at least the cursor length (the loop terminates on every input).  (2)
When no alternative matches, the head byte is one of `$`, backtick, `|` — all
ASCII — so the one-byte skip lands on a character boundary: dropping it
preserves UTF-8 validity, and the slice `&cursor[1..]` never panics.  (3)
Tokenization itself produces no error: the only error parse_cloze_cards
returns is the zero-deletion check after scanning. -/
theorem C9_scan_loop_total :
    (∀ (s : Bytes) (tok : Bytes × Bool) (rem : Bytes),
      s ≠ [] → next_token s = some (tok, rem) → rem.length < s.length) ∧
    (∀ (b : Nat) (t : Bytes), next_token (b :: t) = none →
      (b = 36 ∨ b = 96 ∨ b = 124) ∧ (utf8Valid (b :: t) = true → utf8Valid t = true)) ∧
    (∀ (s : Bytes) (fuel : Nat), s.length ≤ fuel → scan_go fuel s = scan_tokens s) ∧
    (∀ (p : Parser) (t : Bytes) (s n : Nat) (e : ParserError),
      p.parse_cloze_cards t s n = .error e → e.message = zero_deletion_msg) := by
  refine ⟨?_, ?_, ?_, ?_⟩
  · intro s tok rem hne h
    exact (next_token_progress hne h).2
  · intro b t h
    refine ⟨next_token_none_head h, fun hv => ?_⟩
    rcases next_token_none_head h with h1 | h1 | h1 <;>
      (subst h1; exact utf8Valid_ascii_tail (by norm_num) hv)
  · intro s fuel hf
    exact scan_go_fuel fuel s s.length hf (Nat.le_refl _)
  · intro p t s n e h
    rw [parse_cloze_cards_error_eq p t s n e h]

/-- Witness for C9_scan_loop_total: at the one-byte input `$` no alternative
matches and the skip is safe; on "ab" any surplus fuel computes the same
tokens. -/
theorem C9_witness :
    ((36 = 36 ∨ 36 = 96 ∨ 36 = 124) ∧
      (utf8Valid [36] = true → utf8Valid [] = true)) ∧
    scan_go 5 (asciiBytes "ab") = scan_tokens (asciiBytes "ab") :=
  ⟨C9_scan_loop_total.2.1 36 [] rfl,
   C9_scan_loop_total.2.2.1 (asciiBytes "ab") 5 (by decide)⟩

/-! ## C10: skipped bytes are silently discarded -/

theorem scan_parts_go_tokens : ∀ (fuel : Nat) (s : Bytes),
    (scan_parts_go fuel s).filterMap Part.tokenOf = scan_go fuel s := by
  intro fuel
  induction fuel with
  | zero => intro s; rfl
  | succ fuel ih =>
    intro s
    cases s with
    | nil => rfl
    | cons b t =>
      cases hnt : next_token (b :: t) with
      | some tr =>
        obtain ⟨tok, rem⟩ := tr
        simp only [scan_parts_go, scan_go, hnt, List.filterMap_cons, Part.tokenOf]
        rw [ih rem]
      | none =>
        simp only [scan_parts_go, scan_go, hnt, List.filterMap_cons, Part.tokenOf]
        exact ih t

theorem suffix_take_append {s r : Bytes} (h : List.IsSuffix r s) :
    s.take (s.length - r.length) ++ r = s := by
  obtain ⟨u, hu⟩ := h
  subst hu
  have h1 : (u ++ r).length - r.length = u.length := by
    simp [List.length_append]
  rw [h1, List.take_left]

theorem scan_parts_go_flatten : ∀ (fuel : Nat) (s : Bytes), s.length ≤ fuel →
    ((scan_parts_go fuel s).map Part.consumedBytes).flatten = s := by
  intro fuel
  induction fuel with
  | zero =>
    intro s h
    have hs : s = [] := List.eq_nil_of_length_eq_zero (Nat.le_zero.1 h)
    subst hs
    rfl
  | succ fuel ih =>
    intro s h
    cases s with
    | nil => rfl
    | cons b t =>
      cases hnt : next_token (b :: t) with
      | some tr =>
        obtain ⟨tok, rem⟩ := tr
        obtain ⟨hsuf, hlt⟩ := next_token_progress (by simp) hnt
        simp only [scan_parts_go, hnt, List.map_cons, List.flatten_cons, Part.consumedBytes]
        rw [ih rem (by simp only [List.length_cons] at h hlt ⊢; omega)]
        exact suffix_take_append hsuf
      | none =>
        simp only [scan_parts_go, hnt, List.map_cons, List.flatten_cons, Part.consumedBytes]
        rw [ih t (by simp only [List.length_cons] at h ⊢; omega)]
        rfl

/-- The clean-text accumulator of parse_cloze_cards concatenates exactly the
token slices, in order. -/
theorem clean_foldl (l : List (Nat × (Bytes × Bool))) :
    ∀ (acc : Bytes × List (Nat × Nat)),
      (l.foldl
        (fun (acc : Bytes × List (Nat × Nat)) (it : Nat × (Bytes × Bool)) =>
          (acc.1 ++ it.2.1, if it.2.2 then acc.2 ++ [(acc.1.length, it.1)] else acc.2))
        acc).1 = acc.1 ++ (l.map (fun it => it.2.1)).flatten := by
  induction l with
  | nil => intro acc; simp
  | cons x xs ih =>
    intro acc
    simp only [List.foldl_cons, List.map_cons, List.flatten_cons]
    rw [ih]
    simp [List.append_assoc]

theorem enum_slices (l : List (Bytes × Bool)) :
    l.enum.map (fun it => it.2.1) = l.map Prod.fst := by
  have h1 : l.enum.map (fun it => it.2.1) = (l.enum.map Prod.snd).map Prod.fst := by
    rw [List.map_map]
    rfl
  rw [h1, List.enum_eq_enumFrom, List.enumFrom_map_snd]

/-- The clean text of every card parse_cloze_cards emits is the concatenation
of the captured token slices only. -/
theorem parse_cloze_cards_clean (p : Parser) (t : Bytes) (s n : Nat) (cs : List Card)
    (h : p.parse_cloze_cards t s n = .ok cs) :
    ∀ c ∈ cs, ∃ st en, c.content =
      CardContent.Cloze (((scan_tokens (trimBytes t)).map Prod.fst).flatten) st en := by
  simp only [Parser.parse_cloze_cards] at h
  split at h
  · exact absurd h (by simp)
  · injection h with h1
    subst h1
    intro c hc
    simp only [List.mem_map] at hc
    obtain ⟨x, _, hx⟩ := hc
    refine ⟨x.1, usizeDecOne (x.1 +
      ((scan_tokens (trimBytes t)).getD x.2 ([], false)).1.length), ?_⟩
    rw [← hx]
    simp only [Card.new, CardContent.new_cloze]
    have hclean := clean_foldl ((scan_tokens (trimBytes t)).enum) ([], [])
    rw [enum_slices] at hclean
    simp only [List.nil_append] at hclean
    rw [hclean]

/-- C10: a byte consumed by the one-byte error-recovery skip is silently
discarded.  (1) The scan decomposes the input exactly into the consumed
slices of matched tokens and the individually skipped bytes; (2) the
token list is precisely the token projection of that decomposition, so the
skipped bytes are in no token; (3) the clean text of every emitted card is
the concatenation of the captured token slices only, hence contains no
skipped byte; and concretely, the stray `|` and the `$` of an unterminated
math construct are absent from the clean text of "a | b ||x|| $z". -/
theorem C10_skipped_bytes_discarded :
    (∀ s : Bytes, ((scan_parts s).map Part.consumedBytes).flatten = s) ∧
    (∀ s : Bytes, (scan_parts s).filterMap Part.tokenOf = scan_tokens s) ∧
    (∀ (p : Parser) (t : Bytes) (s n : Nat) (cs : List Card),
      p.parse_cloze_cards t s n = .ok cs →
      ∀ c ∈ cs, ∃ st en, c.content =
        CardContent.Cloze (((scan_tokens (trimBytes t)).map Prod.fst).flatten) st en) ∧
    (sample_ctx.parse_cloze_cards (asciiBytes "a | b ||x|| $z") 0 0).map
        (List.map (fun c => c.content)) =
      .ok [CardContent.new_cloze (asciiBytes "a  b x z") 5 5] := by
  refine ⟨?_, ?_, parse_cloze_cards_clean, rfl⟩
  · intro s
    exact scan_parts_go_flatten s.length s (Nat.le_refl _)
  · intro s
    exact scan_parts_go_tokens s.length s

/-- Witness for the hypothesis-bearing part of C10 at the concrete input. -/
theorem C10_witness :
    ∃ st en,
      (Card.new (asciiBytes "deck") (asciiBytes "deck.md") (0, 0)
        (CardContent.new_cloze (asciiBytes "a  b x z") 5 5)).content =
      CardContent.Cloze
        (((scan_tokens (trimBytes (asciiBytes "a | b ||x|| $z"))).map Prod.fst).flatten)
        st en :=
  C10_skipped_bytes_discarded.2.2.1 sample_ctx (asciiBytes "a | b ||x|| $z") 0 0
    [Card.new (asciiBytes "deck") (asciiBytes "deck.md") (0, 0)
      (CardContent.new_cloze (asciiBytes "a  b x z") 5 5)]
    rfl
    (Card.new (asciiBytes "deck") (asciiBytes "deck.md") (0, 0)
      (CardContent.new_cloze (asciiBytes "a  b x z") 5 5))
    (List.mem_singleton.2 rfl)


/-! ## Model validation

Anonymous checks reproducing the test vectors of the repository test suite
(src/parser.rs, mod tests) in the byte-level model, plus the frontmatter and
deck-loader tests.  Each reduces by computation. -/

example :
    sample_ctx.parse (asciiBytes "") = .ok [] := by rfl

example :
    sample_ctx.parse (asciiBytes "C: Foo ||bar|| baz.") =
      .ok [Card.new (asciiBytes "deck") (asciiBytes "deck.md") (0, 0)
             (CardContent.new_cloze (asciiBytes "Foo bar baz.") 4 6)] := by rfl

example :
    (sample_ctx.parse (asciiBytes "C: Foo ||bar|| baz ||quux||.")).map
        (List.map (fun c => c.content)) =
      .ok [CardContent.new_cloze (asciiBytes "Foo bar baz quux.") 4 6,
           CardContent.new_cloze (asciiBytes "Foo bar baz quux.") 12 15] := by rfl

example :
    sample_ctx.parse (asciiBytes "Q: What is Rust?\nA: A systems programming language.") =
      .ok [Card.new (asciiBytes "deck") (asciiBytes "deck.md") (0, 1)
             (CardContent.new_basic (asciiBytes "What is Rust?")
               (asciiBytes "A systems programming language."))] := by rfl

example :
    (sample_ctx.parse (asciiBytes "Q: foo\nbaz\nbaz\nA: FOO\nBAR\nBAZ")).map
        (List.map (fun c => c.content)) =
      .ok [CardContent.new_basic (asciiBytes "foo\nbaz\nbaz") (asciiBytes "FOO\nBAR\nBAZ")] := by
  rfl

example :
    (sample_ctx.parse (asciiBytes "Q: foo\nA: bar\n\nQ: foo\nA: bar\n\n")).map
        List.length = .ok 1 := by rfl

example :
    (sample_ctx.parse (asciiBytes "C: foo ||bar||\n\nC: foo ||bar||")).map
        List.length = .ok 1 := by rfl

example :
    (sample_ctx.parse (asciiBytes "C: The notation ||$n!$|| means n factorial.")).map
        (List.map (fun c => c.content)) =
      .ok [CardContent.new_cloze (asciiBytes "The notation $n!$ means n factorial.") 13 16] := by
  rfl

example :
    (sample_ctx.parse (asciiBytes "C: ||foo||\n||bar||\nbaz.")).map
        (List.map (fun c => c.content)) =
      .ok [CardContent.new_cloze (asciiBytes "foo\nbar\nbaz.") 0 2,
           CardContent.new_cloze (asciiBytes "foo\nbar\nbaz.") 4 6] := by rfl

example :
    (sample_ctx.parse ((asciiBytes "C:\nBuild something people want in Lisp.\n\n") ++
        [226, 128, 148] ++ (asciiBytes " ||Paul Graham||, ||_Hackers and Painters_||\n\n"))).map
        (List.map (fun c =>
          match c.content with
          | .Cloze _ st en => (st, en)
          | _ => (0, 0))) =
      .ok [(42, 52), (55, 76)] := by rfl

example :
    sample_ctx.parse (asciiBytes "Q: Question without answer") =
      .error ⟨"File ended while reading a question without answer.",
        asciiBytes "deck.md", 0⟩ := by rfl

example :
    sample_ctx.parse (asciiBytes "A: Answer without question") =
      .error ⟨"Found answer tag without a question.", asciiBytes "deck.md", 0⟩ := by rfl

example :
    sample_ctx.parse (asciiBytes "Q: Question\nC: Cloze") =
      .error ⟨"Found cloze tag while reading a question.", asciiBytes "deck.md", 1⟩ := by rfl

example :
    sample_ctx.parse (asciiBytes "C: Cloze") =
      .error ⟨zero_deletion_msg, asciiBytes "deck.md", 0⟩ := by rfl

example :
    (sample_ctx.parse (asciiBytes "Q: foo\nA: bar\n---\nQ: baz\nA: quux")).map
        List.length = .ok 2 := by rfl

example :
    extract_frontmatter (asciiBytes "---\nname = \"N\"\n---\nQ: a\nA: b") =
      .ok (⟨some (asciiBytes "N")⟩, asciiBytes "Q: a\nA: b") := by rfl

example :
    (extract_frontmatter (asciiBytes "---\nname = \"X\"\nQ: a")).isOk = false := by rfl

example :
    (parse_deck [(asciiBytes "d/f1.md", asciiBytes "Q: foo\nA: bar"),
                 (asciiBytes "d/f2.md", asciiBytes "Q: foo\nA: bar")]).map
        List.length = .ok 1 := by rfl

example :
    (parse_deck [(asciiBytes "d/ch1.md",
        asciiBytes "---\nname = \"Cell Biology\"\n---\n\nQ: What is a cell?\nA: The basic unit of life.")]).map
      (List.map (fun c => c.deck_name)) = .ok [asciiBytes "Cell Biology"] := by rfl

example :
    (parse_deck [(asciiBytes "d/notes.md", asciiBytes "Q: a\nA: b")]).map
      (List.map (fun c => c.deck_name)) = .ok [asciiBytes "notes"] := by rfl

example :
    (parse_deck [(asciiBytes "d/x.txt", asciiBytes "not a deck file")]).map
        List.length = .ok 0 := by rfl

end Hashcards

